import Mathlib

/-!
Verification of the comment-preprocessing core of `django_render_comments`
(`src/django_render_comments/preprocessor.py`).

Strings are modelled as `List Char`.  The two regular expressions

  inline : open-brace `#` `\s*` lazy-content `\s*` `#` close-brace          (DOTALL)
  block  : open-brace `%` `\s*comment` optional quoted note `\s*%` close-brace
           lazy-content  open-brace `%` `\s*endcomment\s*%` close-brace     (DOTALL)

are embedded as deterministic scanners (`matchInlineAt`, `matchBlockAt`).
The lazy groups take the shortest content reaching the first terminator;
the greedy `\s*` pieces never backtrack usefully because the literal that
follows each of them is a non-whitespace character, so they are modelled by
`takeWhile`/`dropWhile`.  `re.sub` is modelled by a fuel-indexed left-to-right
scan (`subInlineF`, `subBlockF`); fuel `s.length` always suffices because
every match consumes at least one character.
-/

/-- Characters of a string literal. -/
def str (s : String) : List Char := s.data

/-- Python regex `\s` / `str.isspace()` for text patterns: ASCII whitespace,
the C1 separators, and the Unicode space separators. -/
def isWs (c : Char) : Bool :=
  c == ' ' || c == '\t' || c == '\n' || c == '\r' || c == '\x0b' || c == '\x0c' ||
  c == '\x1c' || c == '\x1d' || c == '\x1e' || c == '\x1f' || c == '\x85' || c == '\xa0' ||
  c == '\u1680' || c == '\u2000' || c == '\u2001' || c == '\u2002' || c == '\u2003' ||
  c == '\u2004' || c == '\u2005' || c == '\u2006' || c == '\u2007' || c == '\u2008' ||
  c == '\u2009' || c == '\u200a' || c == '\u2028' || c == '\u2029' || c == '\u202f' ||
  c == '\u205f' || c == '\u3000'

/-- A quote character, as in the regex class `["']`. -/
def isQuote (c : Char) : Bool := c == '"' || c == '\''

/-- `startsSeq p l` : `l` starts with the character sequence `p`
(Python `str.startswith`). -/
def startsSeq : List Char → List Char → Bool
  | [], _ => true
  | _ :: _, [] => false
  | p :: ps, c :: cs => p == c && startsSeq ps cs

/-- `containsSeq p l` : `p` occurs as a contiguous subsequence of `l`
(Python `in` on strings, for nonempty `p`). -/
def containsSeq (p : List Char) : List Char → Bool
  | [] => startsSeq p []
  | c :: t => startsSeq p (c :: t) || containsSeq p t

/-- `lastIs x l` : `l` is nonempty and its last element is `x`. -/
def lastIs (x : Char) : List Char → Bool
  | [] => false
  | [c] => c == x
  | _ :: c :: t => lastIs x (c :: t)

/-- Python `str.lstrip()`. -/
def ltrimWs (l : List Char) : List Char := l.dropWhile isWs

/-- Python `str.rstrip()`. -/
def rstripWs (l : List Char) : List Char := (l.reverse.dropWhile isWs).reverse

/-- Python `str.strip()`. -/
def strip (l : List Char) : List Char := rstripWs (ltrimWs l)

/-- `escape_html_comment` from the source: Python
`text.replace("--", "- -")`, the left-to-right non-overlapping replacement
of every double dash by dash, space, dash. -/
def escape_html_comment : List Char → List Char
  | [] => []
  | [c] => [c]
  | c1 :: c2 :: rest =>
    if c1 == '-' && c2 == '-' then '-' :: ' ' :: '-' :: escape_html_comment rest
    else c1 :: escape_html_comment (c2 :: rest)

/-- Number of replacements `escape_html_comment` performs: the count of
left-to-right non-overlapping double-dash occurrences. -/
def countDD : List Char → Nat
  | [] => 0
  | [_] => 0
  | c1 :: c2 :: rest =>
    if c1 == '-' && c2 == '-' then 1 + countDD rest
    else countDD (c2 :: rest)

/-- The inline comment's closing part `\s*#` close-brace matches at the head
of `u`: skipping maximal whitespace we see the two closing characters.
(Backtracking to a shorter whitespace run cannot help, since the position it
exposes holds a whitespace character, not `#`.) -/
def termAt (u : List Char) : Bool := startsSeq (str "#\x7d") (u.dropWhile isWs)

/-- Characters consumed by the inline closing part at `u`. -/
def termConsumed (u : List Char) : List Char := u.takeWhile isWs ++ str "#\x7d"

/-- Remainder after the inline closing part at `u`. -/
def termRest (u : List Char) : List Char := (u.dropWhile isWs).drop 2

/-- Lazy scan for the inline group `(.*?)\s*#` close-brace: content grows one
character at a time until the closing part matches.  Returns
(consumed text, captured group, rest). -/
def scanI : List Char → Option (List Char × List Char × List Char)
  | [] => none
  | c :: v =>
    if termAt (c :: v) then some (termConsumed (c :: v), [], termRest (c :: v))
    else (scanI v).map fun (w, cont, r) => (c :: w, c :: cont, r)

/-- The closing tag `\{%\s*endcomment\s*%\}` matches at the head of `u`. -/
def endTagAt (u : List Char) : Bool :=
  startsSeq (str "\x7b%") u &&
  (startsSeq (str "endcomment") ((u.drop 2).dropWhile isWs) &&
   startsSeq (str "%\x7d") (((((u.drop 2).dropWhile isWs)).drop 10).dropWhile isWs))

/-- Characters consumed by the block closing tag at `u`. -/
def endTagConsumed (u : List Char) : List Char :=
  str "\x7b%" ++ (u.drop 2).takeWhile isWs ++ str "endcomment" ++
    ((((u.drop 2).dropWhile isWs)).drop 10).takeWhile isWs ++ str "%\x7d"

/-- Remainder after the block closing tag at `u`. -/
def endTagRest (u : List Char) : List Char :=
  ((((((u.drop 2).dropWhile isWs)).drop 10).dropWhile isWs)).drop 2

/-- Lazy scan for the block group `(.*?)` up to the first closing tag. -/
def scanB : List Char → Option (List Char × List Char × List Char)
  | [] => none
  | c :: v =>
    if endTagAt (c :: v) then some (endTagConsumed (c :: v), [], endTagRest (c :: v))
    else (scanB v).map fun (w, cont, r) => (c :: w, c :: cont, r)

/-- The optional quoted note group `(?:\s+["']([^"']*)["'])?` tried at `t2`
(the text right after `comment`): at least one whitespace, an opening quote,
a maximal run of non-quote characters, a closing quote (either kind).
Returns (consumed, note run, rest) when the group matches. -/
def parseNote (t2 : List Char) : Option (List Char × List Char × List Char) :=
  if (t2.takeWhile isWs).isEmpty then none
  else
    match t2.dropWhile isWs with
    | [] => none
    | q :: t4 =>
      if isQuote q then
        match t4.dropWhile (fun c => !(isQuote c)) with
        | [] => none
        | q2 :: t6 =>
          some (t2.takeWhile isWs ++ q :: (t4.takeWhile (fun c => !(isQuote c)) ++ [q2]),
                t4.takeWhile (fun c => !(isQuote c)), t6)
      else none

/-- The end `\s*%` close-brace of the opening block tag, matched at `t`;
`pre` is what the opening tag consumed so far and `nt` the note to report. -/
def finishOpen (pre : List Char) (nt : Option (List Char)) (t : List Char) :
    Option (List Char × Option (List Char) × List Char) :=
  if startsSeq (str "%\x7d") (t.dropWhile isWs) then
    some (pre ++ t.takeWhile isWs ++ str "%\x7d", nt, (t.dropWhile isWs).drop 2)
  else none

/-- The opening block tag `\{%\s*comment(?:\s+["']([^"']*)["'])?\s*%\}` at the
head of `s`.  If the optional note group matches but the tag end does not
follow it, the regex engine abandons the group and retries without it. -/
def parseOpen (s : List Char) : Option (List Char × Option (List Char) × List Char) :=
  if startsSeq (str "\x7b%") s then
    if startsSeq (str "comment") ((s.drop 2).dropWhile isWs) then
      match parseNote (((s.drop 2).dropWhile isWs).drop 7) with
      | some (cn, run, t6) =>
        match finishOpen (str "\x7b%" ++ (s.drop 2).takeWhile isWs ++ str "comment" ++ cn)
                (some run) t6 with
        | some res => some res
        | none => finishOpen (str "\x7b%" ++ (s.drop 2).takeWhile isWs ++ str "comment")
            none (((s.drop 2).dropWhile isWs).drop 7)
      | none => finishOpen (str "\x7b%" ++ (s.drop 2).takeWhile isWs ++ str "comment")
          none (((s.drop 2).dropWhile isWs).drop 7)
    else none
  else none

/-- `INLINE_COMMENT_PATTERN` matched at the head of `s`:
returns (group 0, group 1, rest of the string). -/
def matchInlineAt (s : List Char) : Option (List Char × List Char × List Char) :=
  if startsSeq (str "\x7b#") s then
    (scanI ((s.drop 2).dropWhile isWs)).map fun (w, cont, r) =>
      (str "\x7b#" ++ ((s.drop 2).takeWhile isWs ++ w), cont, r)
  else none

/-- `BLOCK_COMMENT_PATTERN` matched at the head of `s`:
returns (group 0, group 1 = optional note, group 2 = content, rest). -/
def matchBlockAt (s : List Char) : Option (List Char × Option (List Char) × List Char × List Char) :=
  match parseOpen s with
  | some (oc, note, r1) =>
    (scanB r1).map fun (w, cont, r2) => (oc ++ w, note, cont, r2)
  | none => none

/-- `_convert_inline_comment` from the source, as a function of
group 0 (`whole`) and group 1 (`content`). -/
def convertInline (whole content : List Char) : List Char :=
  let stripped := content.dropWhile isWs
  if startsSeq (str "!hide") stripped then whole
  else if startsSeq (str "!render") stripped &&
      startsSeq (str "!hide") ((stripped.drop 7).dropWhile isWs) then whole
  else if startsSeq (str "!render") stripped then
    str "<!-- " ++ escape_html_comment ((stripped.drop 7).dropWhile isWs) ++ str " -->"
  else
    str "\x7b% verbatim %\x7d<!-- " ++ escape_html_comment content ++
      str " -->\x7b% endverbatim %\x7d"

/-- Python truthiness of the optional note string: `None` and the empty
string are falsy. -/
def truthy : Option (List Char) → Bool
  | none => false
  | some l => !l.isEmpty

/-- `_convert_block_comment` from the source, as a function of group 0
(`whole`), group 1 (`note`, `none` when the group did not participate) and
group 2 (`content`). -/
def convertBlock (whole : List Char) (note : Option (List Char)) (content : List Char) :
    List Char :=
  let noteVal := note.getD []
  if truthy note && startsSeq (str "!hide") noteVal then whole
  else if truthy note && (startsSeq (str "!render") noteVal &&
      containsSeq (str "!hide") noteVal) then whole
  else
    let evalMode := truthy note && startsSeq (str "!render") noteVal
    let displayNote : Option (List Char) :=
      if evalMode then
        (if ((noteVal.drop 7).dropWhile isWs).isEmpty then none
         else some ((noteVal.drop 7).dropWhile isWs))
      else note
    let escapedContent := escape_html_comment (strip content)
    let html :=
      if truthy displayNote then
        str "<!-- [" ++ escape_html_comment (displayNote.getD []) ++ str "] " ++
          escapedContent ++ str " -->"
      else str "<!-- " ++ escapedContent ++ str " -->"
    if evalMode then html
    else str "\x7b% verbatim %\x7d" ++ html ++ str "\x7b% endverbatim %\x7d"

/-- `INLINE_COMMENT_PATTERN.sub(_convert_inline_comment, ·)`, fuel-indexed:
left-to-right scan, each match replaced and the scan resumed after it. -/
def subInlineF : Nat → List Char → List Char
  | _, [] => []
  | Nat.succ f, c :: t =>
    match matchInlineAt (c :: t) with
    | some (w, cont, r) => convertInline w cont ++ subInlineF f r
    | none => c :: subInlineF f t
  | 0, s => s

/-- `BLOCK_COMMENT_PATTERN.sub(_convert_block_comment, ·)`, fuel-indexed. -/
def subBlockF : Nat → List Char → List Char
  | _, [] => []
  | Nat.succ f, c :: t =>
    match matchBlockAt (c :: t) with
    | some (w, note, cont, r) => convertBlock w note cont ++ subBlockF f r
    | none => c :: subBlockF f t
  | 0, s => s

/-- Global inline substitution. -/
def subInline (s : List Char) : List Char := subInlineF s.length s

/-- Global block substitution. -/
def subBlock (s : List Char) : List Char := subBlockF s.length s

/-- `preprocess_template` from the source: block comments are substituted
first, then inline comments, and the result is returned. -/
def preprocess_template (source : List Char) : List Char :=
  subInline (subBlock source)

/-- `matchFreeI s` : no suffix of `s` matches the inline pattern, i.e. the
inline grammar does not occur in `s`. -/
def matchFreeI : List Char → Bool
  | [] => true
  | c :: t => (matchInlineAt (c :: t)).isNone && matchFreeI t

/-- `matchFreeB s` : no suffix of `s` matches the block pattern. -/
def matchFreeB : List Char → Bool
  | [] => true
  | c :: t => (matchBlockAt (c :: t)).isNone && matchFreeB t

/-! ### Basic facts about the character-sequence helpers -/

theorem startsSeq_eq_append : ∀ (p l : List Char), startsSeq p l = true → l = p ++ l.drop p.length := by
  intro p
  induction p with
  | nil => intro l _; simp
  | cons x xs ih =>
    intro l h
    cases l with
    | nil => simp [startsSeq] at h
    | cons c cs =>
      simp only [startsSeq, Bool.and_eq_true, beq_iff_eq] at h
      obtain ⟨h1, h2⟩ := h
      subst h1
      simpa using ih cs h2

theorem containsSeq_of_startsSeq (p l : List Char) (h : startsSeq p l = true) :
    containsSeq p l = true := by
  cases l with
  | nil => simpa [containsSeq] using h
  | cons c t => simp [containsSeq, h]

theorem containsSeq_cons_elim {p c t} (h : containsSeq p (c :: t) = false) :
    startsSeq p (c :: t) = false ∧ containsSeq p t = false := by
  simpa [containsSeq, Bool.or_eq_false_iff] using h

theorem containsSeq_append_right : ∀ (a b : List Char), containsSeq p (a ++ b) = false →
    containsSeq p b = false := by
  intro a
  induction a with
  | nil => intro b h; simpa using h
  | cons c a' ih =>
    intro b h
    exact ih b (containsSeq_cons_elim h).2

theorem containsSeq_dropWhile (q : Char → Bool) :
    ∀ (l : List Char), containsSeq p l = false → containsSeq p (l.dropWhile q) = false := by
  intro l
  induction l with
  | nil => intro h; simpa using h
  | cons c t ih =>
    intro h
    obtain ⟨h1, h2⟩ := containsSeq_cons_elim h
    rw [List.dropWhile_cons]
    by_cases hq : q c = true
    · simp only [hq, if_true]
      exact ih h2
    · simp only [hq, if_false]
      simp [containsSeq, h1, h2]

theorem noSeq2_append (x y : Char) : ∀ (a b : List Char),
    containsSeq [x, y] a = false → containsSeq [x, y] b = false →
    (lastIs x a = true → startsSeq [y] b = false) →
    containsSeq [x, y] (a ++ b) = false := by
  intro a
  induction a with
  | nil => intro b _ hb _; simpa using hb
  | cons c a' ih =>
    intro b ha hb hbd
    obtain ⟨hs, hc⟩ := containsSeq_cons_elim ha
    have htail : containsSeq [x, y] (a' ++ b) = false := by
      apply ih b hc hb
      intro hlast
      apply hbd
      cases a' with
      | nil => simp [lastIs] at hlast
      | cons d a'' => simpa [lastIs] using hlast
    rw [List.cons_append, containsSeq, htail, Bool.or_false]
    cases hxc : (x == c) with
    | false => simp [startsSeq, hxc]
    | true =>
      have hx : x = c := by simpa using hxc
      subst hx
      simp only [startsSeq, beq_self_eq_true, Bool.true_and]
      cases a' with
      | nil =>
        have : lastIs x [x] = true := by simp [lastIs]
        have hyb := hbd this
        cases b with
        | nil => simp [startsSeq]
        | cons e b' => simpa [startsSeq] using hyb
      | cons d a'' =>
        have : startsSeq [y] (d :: a'') = false := by
          have := hs
          simpa [startsSeq] using this
        simpa [startsSeq] using this

/-! ### The inline scanner -/

theorem termAt_nil : termAt [] = false := rfl

theorem termAt_cons_ws {c : Char} (hw : isWs c = true) (v : List Char) :
    termAt (c :: v) = termAt v := by
  simp [termAt, List.dropWhile_cons, hw]

theorem termAt_cons_nonws {c : Char} (hw : isWs c = false) (v : List Char) :
    termAt (c :: v) = startsSeq (str "#\x7d") (c :: v) := by
  simp [termAt, List.dropWhile_cons, hw]

theorem scanI_cons_term {c v} (h : termAt (c :: v) = true) :
    scanI (c :: v) = some (termConsumed (c :: v), [], termRest (c :: v)) := by
  simp [scanI, h]

theorem scanI_cons_not {c v} (h : termAt (c :: v) = false) :
    scanI (c :: v) = (scanI v).map fun (w, cont, r) => (c :: w, c :: cont, r) := by
  simp [scanI, h]

theorem term_concat {u : List Char} (h : termAt u = true) :
    termConsumed u ++ termRest u = u := by
  have hd := startsSeq_eq_append _ _ h
  have hlen : (str "#\x7d").length = 2 := rfl
  rw [hlen] at hd
  calc termConsumed u ++ termRest u
      = u.takeWhile isWs ++ (str "#\x7d" ++ (u.dropWhile isWs).drop 2) := by
        simp [termConsumed, termRest, List.append_assoc]
    _ = u.takeWhile isWs ++ u.dropWhile isWs := by rw [← hd]
    _ = u := List.takeWhile_append_dropWhile isWs u

theorem scanI_concat : ∀ (u w cont r : List Char), scanI u = some (w, cont, r) →
    w ++ r = u ∧ w ≠ [] := by
  intro u
  induction u with
  | nil => intro w cont r h; simp [scanI] at h
  | cons c v ih =>
    intro w cont r h
    by_cases ht : termAt (c :: v) = true
    · rw [scanI_cons_term ht] at h
      obtain ⟨h1, h2, h3⟩ := by simpa using h
      subst h1; subst h3
      refine ⟨term_concat ht, ?_⟩
      simp [termConsumed, List.append_eq_nil, str]
    · rw [scanI_cons_not (by simpa using ht)] at h
      rw [Option.map_eq_some'] at h
      obtain ⟨⟨w', cont', r'⟩, hm, heq⟩ := h
      obtain ⟨hw, hcont, hr⟩ := by simpa using heq
      obtain ⟨hwr, _⟩ := ih w' cont' r' hm
      subst hw; subst hr
      constructor
      · rw [List.cons_append, hwr]
      · simp

theorem scanI_app_isSome : ∀ (u v : List Char), termAt v = true →
    (scanI (u ++ v)).isSome = true := by
  intro u
  induction u with
  | nil =>
    intro v hv
    cases v with
    | nil => simp [termAt_nil] at hv
    | cons c v' => simp [scanI_cons_term hv]
  | cons c u' ih =>
    intro v hv
    rw [List.cons_append]
    by_cases ht : termAt (c :: (u' ++ v)) = true
    · simp [scanI_cons_term ht]
    · rw [scanI_cons_not (by simpa using ht)]
      simpa using ih v hv

/-! ### The block scanner -/

theorem endTagAt_nil : endTagAt [] = false := rfl

theorem scanB_cons_term {c v} (h : endTagAt (c :: v) = true) :
    scanB (c :: v) = some (endTagConsumed (c :: v), [], endTagRest (c :: v)) := by
  simp [scanB, h]

theorem scanB_cons_not {c v} (h : endTagAt (c :: v) = false) :
    scanB (c :: v) = (scanB v).map fun (w, cont, r) => (c :: w, c :: cont, r) := by
  simp [scanB, h]

theorem endTag_concat {u : List Char} (h : endTagAt u = true) :
    endTagConsumed u ++ endTagRest u = u := by
  simp only [endTagAt, Bool.and_eq_true] at h
  obtain ⟨h1, h2, h3⟩ := h
  have hd1 := startsSeq_eq_append _ _ h1
  have hd2 := startsSeq_eq_append _ _ h2
  have hd3 := startsSeq_eq_append _ _ h3
  have hl1 : (str "\x7b%").length = 2 := rfl
  have hl2 : (str "endcomment").length = 10 := rfl
  have hl3 : (str "%\x7d").length = 2 := rfl
  rw [hl1] at hd1; rw [hl2] at hd2; rw [hl3] at hd3
  calc endTagConsumed u ++ endTagRest u
      = str "\x7b%" ++ ((u.drop 2).takeWhile isWs ++ (str "endcomment" ++
          ((((u.drop 2).dropWhile isWs)).drop 10).takeWhile isWs ++
          (str "%\x7d" ++ (((((u.drop 2).dropWhile isWs)).drop 10).dropWhile isWs).drop 2))) := by
        simp [endTagConsumed, endTagRest, List.append_assoc]
    _ = str "\x7b%" ++ ((u.drop 2).takeWhile isWs ++ (str "endcomment" ++
          ((((u.drop 2).dropWhile isWs)).drop 10).takeWhile isWs ++
          (((u.drop 2).dropWhile isWs).drop 10).dropWhile isWs)) := by rw [← hd3]
    _ = str "\x7b%" ++ ((u.drop 2).takeWhile isWs ++ (str "endcomment" ++
          ((u.drop 2).dropWhile isWs).drop 10)) := by
        rw [List.append_assoc, List.takeWhile_append_dropWhile]
    _ = str "\x7b%" ++ ((u.drop 2).takeWhile isWs ++ (u.drop 2).dropWhile isWs) := by rw [← hd2]
    _ = str "\x7b%" ++ u.drop 2 := by rw [List.takeWhile_append_dropWhile]
    _ = u := hd1.symm

theorem scanB_concat : ∀ (u w cont r : List Char), scanB u = some (w, cont, r) →
    w ++ r = u ∧ w ≠ [] := by
  intro u
  induction u with
  | nil => intro w cont r h; simp [scanB] at h
  | cons c v ih =>
    intro w cont r h
    by_cases ht : endTagAt (c :: v) = true
    · rw [scanB_cons_term ht] at h
      obtain ⟨h1, h2, h3⟩ := by simpa using h
      subst h1; subst h3
      refine ⟨endTag_concat ht, ?_⟩
      simp [endTagConsumed, List.append_eq_nil, str]
    · rw [scanB_cons_not (by simpa using ht)] at h
      rw [Option.map_eq_some'] at h
      obtain ⟨⟨w', cont', r'⟩, hm, heq⟩ := h
      obtain ⟨hw, hcont, hr⟩ := by simpa using heq
      obtain ⟨hwr, _⟩ := ih w' cont' r' hm
      subst hw; subst hr
      constructor
      · rw [List.cons_append, hwr]
      · simp

theorem scanB_app_isSome : ∀ (u v : List Char), endTagAt v = true →
    (scanB (u ++ v)).isSome = true := by
  intro u
  induction u with
  | nil =>
    intro v hv
    cases v with
    | nil => simp [endTagAt_nil] at hv
    | cons c v' => simp [scanB_cons_term hv]
  | cons c u' ih =>
    intro v hv
    rw [List.cons_append]
    by_cases ht : endTagAt (c :: (u' ++ v)) = true
    · simp [scanB_cons_term ht]
    · rw [scanB_cons_not (by simpa using ht)]
      simpa using ih v hv

/-! ### Decomposition of the opening block tag -/

theorem finishOpen_concat {pre t : List Char} {nt : Option (List Char)}
    {x : List Char × Option (List Char) × List Char} (h : finishOpen pre nt t = some x) :
    x.2.1 = nt ∧ x.1 ++ x.2.2 = pre ++ t ∧ x.1 ≠ [] := by
  by_cases hc : startsSeq (str "%\x7d") (t.dropWhile isWs) = true
  · rw [finishOpen, if_pos hc] at h
    have hd := startsSeq_eq_append _ _ hc
    have hl : (str "%\x7d").length = 2 := rfl
    rw [hl] at hd
    have hx : x = (pre ++ t.takeWhile isWs ++ str "%\x7d", nt, (t.dropWhile isWs).drop 2) := by
      simpa using h.symm
    subst hx
    refine ⟨rfl, ?_, ?_⟩
    · show pre ++ t.takeWhile isWs ++ str "%\x7d" ++ (t.dropWhile isWs).drop 2 = pre ++ t
      have : pre ++ (t.takeWhile isWs ++ (str "%\x7d" ++ (t.dropWhile isWs).drop 2)) = pre ++ t := by
        rw [← hd, List.takeWhile_append_dropWhile]
      simpa [List.append_assoc] using this
    · show pre ++ t.takeWhile isWs ++ str "%\x7d" ≠ []
      simp [List.append_eq_nil, str]
  · rw [finishOpen, if_neg hc] at h
    exact absurd h (by simp)

theorem parseNote_concat {t2 : List Char} {x : List Char × List Char × List Char}
    (h : parseNote t2 = some x) : x.1 ++ x.2.2 = t2 := by
  rw [parseNote] at h
  split at h
  · exact absurd h (by simp)
  · split at h
    next hdw => exact absurd h (by simp)
    next q t4 hdw =>
      split at h
      · split at h
        next hdw2 => exact absurd h (by simp)
        next q2 t6' hdw2 =>
          have hx : x = (t2.takeWhile isWs ++ q :: (t4.takeWhile (fun c => !(isQuote c)) ++ [q2]),
              t4.takeWhile (fun c => !(isQuote c)), t6') := by
            simpa using h.symm
          subst hx
          show t2.takeWhile isWs ++ q :: (t4.takeWhile (fun c => !(isQuote c)) ++ [q2]) ++ t6' = t2
          have : t2.takeWhile isWs ++
              (q :: (t4.takeWhile (fun c => !(isQuote c)) ++ (q2 :: t6'))) = t2 := by
            rw [show (q2 :: t6') = t4.dropWhile (fun c => !(isQuote c)) from hdw2.symm,
              List.takeWhile_append_dropWhile,
              show (q :: t4) = t2.dropWhile isWs from hdw.symm,
              List.takeWhile_append_dropWhile]
          simpa [List.append_assoc] using this
      · exact absurd h (by simp)

theorem parseOpen_shape {s : List Char} {x} (h : parseOpen s = some x) :
    startsSeq (str "\x7b%") s = true := by
  by_contra hc
  rw [parseOpen, if_neg hc] at h
  exact absurd h (by simp)

theorem parseOpen_concat {s : List Char} {x : List Char × Option (List Char) × List Char}
    (h : parseOpen s = some x) : x.1 ++ x.2.2 = s ∧ x.1 ≠ [] := by
  have hshape := parseOpen_shape h
  have hs2 := startsSeq_eq_append _ _ hshape
  have hl : (str "\x7b%").length = 2 := rfl
  rw [hl] at hs2
  rw [parseOpen, if_pos hshape] at h
  by_cases hcm : startsSeq (str "comment") ((s.drop 2).dropWhile isWs) = true
  · rw [if_pos hcm] at h
    have hcm2 := startsSeq_eq_append _ _ hcm
    have hlc : (str "comment").length = 7 := rfl
    rw [hlc] at hcm2
    have hbase : (str "\x7b%" ++ (s.drop 2).takeWhile isWs ++ str "comment") ++
        ((s.drop 2).dropWhile isWs).drop 7 = s := by
      have : str "\x7b%" ++ ((s.drop 2).takeWhile isWs ++
          (str "comment" ++ ((s.drop 2).dropWhile isWs).drop 7)) = s := by
        rw [← hcm2, List.takeWhile_append_dropWhile]
        exact hs2.symm
      simpa [List.append_assoc] using this
    split at h
    next cn run t6 hpn =>
      have hcn := parseNote_concat hpn
      split at h
      next res2 hfo =>
        have hx : x = res2 := by simpa using h.symm
        subst hx
        obtain ⟨_, h2, h3⟩ := finishOpen_concat hfo
        refine ⟨?_, h3⟩
        rw [h2, List.append_assoc]
        rw [show cn ++ t6 = ((s.drop 2).dropWhile isWs).drop 7 from hcn]
        exact hbase
      next hfo =>
        obtain ⟨_, h2, h3⟩ := finishOpen_concat h
        exact ⟨by rw [h2]; exact hbase, h3⟩
    next hpn =>
      obtain ⟨_, h2, h3⟩ := finishOpen_concat h
      exact ⟨by rw [h2]; exact hbase, h3⟩
  · rw [if_neg hcm] at h
    exact absurd h (by simp)

/-! ### The two match functions -/

theorem matchInlineAt_shape {s : List Char} {x} (h : matchInlineAt s = some x) :
    startsSeq (str "\x7b#") s = true := by
  by_contra hc
  rw [matchInlineAt, if_neg hc] at h
  exact absurd h (by simp)

theorem matchInline_concat {s : List Char} {x : List Char × List Char × List Char}
    (h : matchInlineAt s = some x) : x.1 ++ x.2.2 = s ∧ x.1 ≠ [] := by
  have hshape := matchInlineAt_shape h
  have hs2 := startsSeq_eq_append _ _ hshape
  have hl : (str "\x7b#").length = 2 := rfl
  rw [hl] at hs2
  rw [matchInlineAt, if_pos hshape] at h
  cases hm : scanI ((s.drop 2).dropWhile isWs) with
  | none => rw [hm] at h; exact absurd h (by simp)
  | some trip =>
    obtain ⟨w', cont', r'⟩ := trip
    obtain ⟨hwr, hwne⟩ := scanI_concat _ _ _ _ hm
    rw [hm] at h
    have hx : x = (str "\x7b#" ++ ((s.drop 2).takeWhile isWs ++ w'), cont', r') := by
      simpa using h.symm
    subst hx
    constructor
    · show str "\x7b#" ++ ((s.drop 2).takeWhile isWs ++ w') ++ r' = s
      have : str "\x7b#" ++ ((s.drop 2).takeWhile isWs ++ (w' ++ r')) = s := by
        rw [hwr, List.takeWhile_append_dropWhile]
        exact hs2.symm
      simpa [List.append_assoc] using this
    · show str "\x7b#" ++ ((s.drop 2).takeWhile isWs ++ w') ≠ []
      simp [str]

theorem matchBlockAt_shape {s : List Char} {x} (h : matchBlockAt s = some x) :
    startsSeq (str "\x7b%") s = true := by
  rw [matchBlockAt] at h
  split at h
  next po hpo => exact parseOpen_shape hpo
  next => exact absurd h (by simp)

theorem matchBlock_concat {s : List Char}
    {x : List Char × Option (List Char) × List Char × List Char}
    (h : matchBlockAt s = some x) : x.1 ++ x.2.2.2 = s ∧ x.1 ≠ [] := by
  rw [matchBlockAt] at h
  split at h
  next oc nt r1 hpo =>
    cases hm : scanB r1 with
    | none => rw [hm] at h; exact absurd h (by simp)
    | some trip =>
      obtain ⟨w2, cont2, r2⟩ := trip
      obtain ⟨hwr2, hw2ne⟩ := scanB_concat _ _ _ _ hm
      have hp := parseOpen_concat hpo
      obtain ⟨hwr1, hoc⟩ := by simpa using hp
      rw [hm] at h
      have hx : x = (oc ++ w2, nt, cont2, r2) := by simpa using h.symm
      subst hx
      constructor
      · show (oc ++ w2) ++ r2 = s
        rw [List.append_assoc, hwr2]
        exact hwr1
      · show oc ++ w2 ≠ []
        simp [hoc]
  next => exact absurd h (by simp)

/-! ### The substitution loops -/

theorem subInlineF_irrel : ∀ (f1 : Nat) (s : List Char), s.length ≤ f1 →
    ∀ (f2 : Nat), s.length ≤ f2 → subInlineF f1 s = subInlineF f2 s := by
  intro f1
  induction f1 with
  | zero =>
    intro s hs f2 _
    have : s = [] := by
      cases s with
      | nil => rfl
      | cons c t => simp at hs
    subst this
    cases f2 <;> rfl
  | succ f ih =>
    intro s hs f2 hs2
    cases s with
    | nil => cases f2 <;> rfl
    | cons c t =>
      cases f2 with
      | zero => simp at hs2
      | succ f2' =>
        show subInlineF (f + 1) (c :: t) = subInlineF (f2' + 1) (c :: t)
        rw [subInlineF, subInlineF]
        cases hm : matchInlineAt (c :: t) with
        | none =>
          have ht : t.length ≤ f := by simpa using hs
          have ht2 : t.length ≤ f2' := by simpa using hs2
          show c :: subInlineF f t = c :: subInlineF f2' t
          rw [ih t ht f2' ht2]
        | some trip =>
          obtain ⟨w, cont, r⟩ := trip
          obtain ⟨hwr, hwne⟩ := matchInline_concat hm
          have hlen : w.length + r.length = t.length + 1 := by
            have := congrArg List.length hwr
            simpa [List.length_append] using this
          have hwpos : 1 ≤ w.length := by
        
            cases w with
            | nil => exact absurd rfl hwne
            | cons a b => simp
          have hr : r.length ≤ f := by simp at hs; omega
          have hr2 : r.length ≤ f2' := by simp at hs2; omega
          show convertInline w cont ++ subInlineF f r = convertInline w cont ++ subInlineF f2' r
          rw [ih r hr f2' hr2]

theorem subBlockF_irrel : ∀ (f1 : Nat) (s : List Char), s.length ≤ f1 →
    ∀ (f2 : Nat), s.length ≤ f2 → subBlockF f1 s = subBlockF f2 s := by
  intro f1
  induction f1 with
  | zero =>
    intro s hs f2 _
    have : s = [] := by
      cases s with
      | nil => rfl
      | cons c t => simp at hs
    subst this
    cases f2 <;> rfl
  | succ f ih =>
    intro s hs f2 hs2
    cases s with
    | nil => cases f2 <;> rfl
    | cons c t =>
      cases f2 with
      | zero => simp at hs2
      | succ f2' =>
        show subBlockF (f + 1) (c :: t) = subBlockF (f2' + 1) (c :: t)
        rw [subBlockF, subBlockF]
        cases hm : matchBlockAt (c :: t) with
        | none =>
          have ht : t.length ≤ f := by simpa using hs
          have ht2 : t.length ≤ f2' := by simpa using hs2
          show c :: subBlockF f t = c :: subBlockF f2' t
          rw [ih t ht f2' ht2]
        | some quad =>
          obtain ⟨w, note, cont, r⟩ := quad
          obtain ⟨hwr, hwne⟩ := matchBlock_concat hm
          have hlen : w.length + r.length = t.length + 1 := by
            have := congrArg List.length hwr
            simpa [List.length_append] using this
          have hwpos : 1 ≤ w.length := by
            cases w with
            | nil => exact absurd rfl hwne
            | cons a b => simp
          have hr : r.length ≤ f := by simp at hs; omega
          have hr2 : r.length ≤ f2' := by simp at hs2; omega
          show convertBlock w note cont ++ subBlockF f r = convertBlock w note cont ++ subBlockF f2' r
          rw [ih r hr f2' hr2]

theorem subInline_nil : subInline [] = [] := rfl

theorem subInline_some {c : Char} {t w cont r : List Char}
    (h : matchInlineAt (c :: t) = some (w, cont, r)) :
    subInline (c :: t) = convertInline w cont ++ subInline r := by
  obtain ⟨hwr, hwne⟩ := by simpa using matchInline_concat h
  have hlen : w.length + r.length = t.length + 1 := by
    have := congrArg List.length hwr
    simpa [List.length_append] using this
  have hwpos : 1 ≤ w.length := by
    cases w with
    | nil => exact absurd rfl hwne
    | cons a b => simp
  show subInlineF (c :: t).length (c :: t) = convertInline w cont ++ subInline r
  have : (c :: t).length = t.length + 1 := by simp
  rw [this, subInlineF, h]
  show convertInline w cont ++ subInlineF t.length r = convertInline w cont ++ subInline r
  rw [subInlineF_irrel t.length r (by omega) r.length (le_refl _)]
  rfl

theorem subInline_none {c : Char} {t : List Char} (h : matchInlineAt (c :: t) = none) :
    subInline (c :: t) = c :: subInline t := by
  show subInlineF (c :: t).length (c :: t) = c :: subInline t
  have : (c :: t).length = t.length + 1 := by simp
  rw [this, subInlineF, h]
  rfl

theorem subBlock_nil : subBlock [] = [] := rfl

theorem subBlock_some {c : Char} {t w r : List Char} {note : Option (List Char)} {cont : List Char}
    (h : matchBlockAt (c :: t) = some (w, note, cont, r)) :
    subBlock (c :: t) = convertBlock w note cont ++ subBlock r := by
  obtain ⟨hwr, hwne⟩ := by simpa using matchBlock_concat h
  have hlen : w.length + r.length = t.length + 1 := by
    have := congrArg List.length hwr
    simpa [List.length_append] using this
  have hwpos : 1 ≤ w.length := by
    cases w with
    | nil => exact absurd rfl hwne
    | cons a b => simp
  show subBlockF (c :: t).length (c :: t) = convertBlock w note cont ++ subBlock r
  have : (c :: t).length = t.length + 1 := by simp
  rw [this, subBlockF, h]
  show convertBlock w note cont ++ subBlockF t.length r = convertBlock w note cont ++ subBlock r
  rw [subBlockF_irrel t.length r (by omega) r.length (le_refl _)]
  rfl

theorem subBlock_none {c : Char} {t : List Char} (h : matchBlockAt (c :: t) = none) :
    subBlock (c :: t) = c :: subBlock t := by
  show subBlockF (c :: t).length (c :: t) = c :: subBlock t
  have : (c :: t).length = t.length + 1 := by simp
  rw [this, subBlockF, h]
  rfl

/-! ### Passthrough on match-free text -/

theorem subInline_id : ∀ (s : List Char), matchFreeI s = true → subInline s = s := by
  intro s
  induction s with
  | nil => intro _; rfl
  | cons c t ih =>
    intro h
    obtain ⟨h1, h2⟩ := by simpa [matchFreeI, Bool.and_eq_true] using h
    cases hm : matchInlineAt (c :: t) with
    | none => rw [subInline_none hm, ih h2]
    | some trip => rw [hm] at h1; simp [Option.isNone] at h1

theorem subBlock_id : ∀ (s : List Char), matchFreeB s = true → subBlock s = s := by
  intro s
  induction s with
  | nil => intro _; rfl
  | cons c t ih =>
    intro h
    obtain ⟨h1, h2⟩ := by simpa [matchFreeB, Bool.and_eq_true] using h
    cases hm : matchBlockAt (c :: t) with
    | none => rw [subBlock_none hm, ih h2]
    | some quad => rw [hm] at h1; simp [Option.isNone] at h1

/-- Shared core of claims C9 and C6: on text where neither grammar matches
anywhere, the transform is the identity. -/
theorem preprocess_id (s : List Char) (hb : matchFreeB s = true) (hi : matchFreeI s = true) :
    preprocess_template s = s := by
  rw [preprocess_template, subBlock_id s hb, subInline_id s hi]

theorem matchFreeI_of_noSeq : ∀ (s : List Char), containsSeq (str "\x7b#") s = false →
    matchFreeI s = true := by
  intro s
  induction s with
  | nil => intro _; rfl
  | cons c t ih =>
    intro h
    obtain ⟨h1, h2⟩ := containsSeq_cons_elim h
    rw [matchFreeI, Bool.and_eq_true]
    refine ⟨?_, ih h2⟩
    cases hm : matchInlineAt (c :: t) with
    | none => rfl
    | some trip =>
      have := matchInlineAt_shape hm
      rw [this] at h1
      exact absurd h1 (by simp)

theorem matchFreeB_of_noSeq : ∀ (s : List Char), containsSeq (str "\x7b%") s = false →
    matchFreeB s = true := by
  intro s
  induction s with
  | nil => intro _; rfl
  | cons c t ih =>
    intro h
    obtain ⟨h1, h2⟩ := containsSeq_cons_elim h
    rw [matchFreeB, Bool.and_eq_true]
    refine ⟨?_, ih h2⟩
    cases hm : matchBlockAt (c :: t) with
    | none => rfl
    | some quad =>
      have := matchBlockAt_shape hm
      rw [this] at h1
      exact absurd h1 (by simp)

/-! ### Whitespace stripping -/

theorem strHB : str "#\x7d" = ['#', '\x7d'] := rfl

theorem strSHB : str " #\x7d" = [' ', '#', '\x7d'] := rfl

theorem rstripWs_cons_nonws {x : Char} (hw : isWs x = false) (u : List Char) :
    rstripWs (x :: u) = x :: rstripWs u := by
  rw [rstripWs, List.reverse_cons, List.dropWhile_append]
  by_cases he : (u.reverse.dropWhile isWs).isEmpty = true
  · rw [if_pos he]
    have h0 : u.reverse.dropWhile isWs = [] := by simpa [List.isEmpty_iff] using he
    rw [rstripWs, h0]
    simp [List.dropWhile_cons, hw]
  · rw [if_neg he, List.reverse_append]
    simp [rstripWs]

theorem rstripWs_eq_nil_iff {u : List Char} : rstripWs u = [] ↔ ∀ c ∈ u, isWs c = true := by
  rw [rstripWs, List.reverse_eq_nil_iff, List.dropWhile_eq_nil_iff]
  constructor
  · intro h c hc
    exact h c (List.mem_reverse.mpr hc)
  · intro h c hc
    exact h c (List.mem_reverse.mp hc)

theorem rstripWs_cons_ne {x : Char} {u : List Char} (h : rstripWs u ≠ []) :
    rstripWs (x :: u) = x :: rstripWs u := by
  rw [rstripWs, List.reverse_cons, List.dropWhile_append]
  have h0 : u.reverse.dropWhile isWs ≠ [] := by
    intro hh
    exact h (by rw [rstripWs, hh]; rfl)
  have he : (u.reverse.dropWhile isWs).isEmpty ≠ true := by
    simpa [List.isEmpty_iff] using h0
  rw [if_neg he, List.reverse_append]
  simp [rstripWs]

theorem dropWhile_head_false {q : Char → Bool} :
    ∀ {l : List Char} {c : Char} {cs : List Char}, l.dropWhile q = c :: cs → q c = false := by
  intro l
  induction l with
  | nil => intro c cs h; simp at h
  | cons x t ih =>
    intro c cs h
    rw [List.dropWhile_cons] at h
    by_cases hq : q x = true
    · rw [if_pos hq] at h
      exact ih h
    · rw [if_neg hq] at h
      obtain ⟨h1, _⟩ := by simpa using h
      rw [← h1]
      simpa using hq

theorem strip_dropWhile {t : List Char} : (strip t).dropWhile isWs = strip t := by
  cases h : strip t with
  | nil => simp
  | cons c cs =>
    have h0 : (ltrimWs t).reverse =
        (ltrimWs t).reverse.takeWhile isWs ++ (ltrimWs t).reverse.dropWhile isWs :=
      (List.takeWhile_append_dropWhile _ _).symm
    have hsplit : ltrimWs t = rstripWs (ltrimWs t) ++ ((ltrimWs t).reverse.takeWhile isWs).reverse := by
      calc ltrimWs t = (ltrimWs t).reverse.reverse := (List.reverse_reverse _).symm
        _ = ((ltrimWs t).reverse.takeWhile isWs ++ (ltrimWs t).reverse.dropWhile isWs).reverse := by
            rw [← h0]
        _ = rstripWs (ltrimWs t) ++ ((ltrimWs t).reverse.takeWhile isWs).reverse := by
            rw [List.reverse_append]; rfl
    rw [strip] at h
    rw [h] at hsplit
    have hc : isWs c = false := by
      obtain ⟨z, hz⟩ : ∃ z, ltrimWs t = c :: (cs ++ z) := ⟨_, by rw [hsplit]; rfl⟩
      exact dropWhile_head_false (show t.dropWhile isWs = c :: (cs ++ z) from hz)
    simp [List.dropWhile_cons, hc]

theorem takeWhile_ws_append_all {u v : List Char} (h : ∀ c ∈ u, isWs c = true) :
    (u ++ v).takeWhile isWs = u ++ v.takeWhile isWs := by
  induction u with
  | nil => simp
  | cons x u' ih =>
    have hx : isWs x = true := h x (by simp)
    rw [List.cons_append, List.takeWhile_cons, if_pos hx,
      ih (fun c hc => h c (by simp [hc]))]
    rfl

theorem dropWhile_ws_append_all {u v : List Char} (h : ∀ c ∈ u, isWs c = true) :
    (u ++ v).dropWhile isWs = v.dropWhile isWs := by
  rw [List.dropWhile_append]
  have h0 : u.dropWhile isWs = [] := List.dropWhile_eq_nil_iff.mpr h
  simp [h0]

theorem startsSeq2_eval (a b x y : Char) (l : List Char) :
    startsSeq [a, b] (x :: y :: l) = ((a == x) && (b == y)) := by
  simp [startsSeq]


/-- On content with no occurrence of the inline closing pair, followed by the
literal closing `" #"`-close-brace, the lazy inline scan consumes everything,
captures exactly the right-stripped content (the regex's trailing `\s*`
absorbs trailing whitespace), and leaves nothing. -/
theorem scanI_strip : ∀ (u : List Char), containsSeq (str "#\x7d") u = false →
    scanI (u ++ str " #\x7d") = some (u ++ str " #\x7d", rstripWs u, []) := by
  intro u
  induction u with
  | nil => intro _; decide
  | cons x u' ih =>
    intro h
    obtain ⟨hs, hc⟩ := containsSeq_cons_elim h
    rw [List.cons_append]
    by_cases hw : isWs x = true
    · by_cases ht : termAt (u' ++ str " #\x7d") = true
      · have hu' : u'.dropWhile isWs = [] := by
          cases hdw : u'.dropWhile isWs with
          | nil => rfl
          | cons z zs =>
            exfalso
            have hdapp : (u' ++ str " #\x7d").dropWhile isWs = z :: (zs ++ str " #\x7d") := by
              rw [List.dropWhile_append, hdw]
              simp
            rw [termAt, hdapp, strHB] at ht
            have hcontra : containsSeq (str "#\x7d") (u'.dropWhile isWs) = false :=
              containsSeq_dropWhile isWs u' hc
            rw [hdw] at hcontra
            obtain ⟨hzz, _⟩ := containsSeq_cons_elim hcontra
            rw [strHB] at hzz
            cases zs with
            | nil => simp [startsSeq] at ht
            | cons y zs' =>
              simp only [startsSeq, Bool.and_eq_true, beq_iff_eq] at ht
              obtain ⟨hz1, hy1, _⟩ := ht
              rw [← hz1, ← hy1] at hzz
              simp [startsSeq] at hzz
        have hall : ∀ c ∈ u', isWs c = true := List.dropWhile_eq_nil_iff.mp hu'
        have htx : termAt (x :: (u' ++ str " #\x7d")) = true := by
          rw [termAt_cons_ws hw]
          exact ht
        rw [scanI_cons_term htx]
        have hTC : termConsumed (x :: (u' ++ str " #\x7d")) = x :: (u' ++ str " #\x7d") := by
          rw [termConsumed, List.takeWhile_cons, if_pos hw, takeWhile_ws_append_all hall]
          rw [show (str " #\x7d").takeWhile isWs = [' '] from rfl]
          simp [strHB, strSHB, List.append_assoc]
        have hRest : termRest (x :: (u' ++ str " #\x7d")) = [] := by
          rw [termRest, List.dropWhile_cons, if_pos hw, dropWhile_ws_append_all hall]
          rfl
        have hContent : rstripWs (x :: u') = [] := by
          rw [rstripWs_eq_nil_iff]
          intro c hc2
          rcases List.mem_cons.mp hc2 with h1 | h2
          · rw [h1]; exact hw
          · exact hall c h2
        rw [hTC, hRest, hContent]
      · have hne : rstripWs u' ≠ [] := by
          intro hnil
          have hall : ∀ c ∈ u', isWs c = true := rstripWs_eq_nil_iff.mp hnil
          have h0 : (u' ++ str " #\x7d").dropWhile isWs = str "#\x7d" := by
            rw [dropWhile_ws_append_all hall]
            rfl
          rw [termAt, h0] at ht
          exact ht (by decide)
        have htx : termAt (x :: (u' ++ str " #\x7d")) = false := by
          rw [termAt_cons_ws hw]
          simpa using ht
        rw [scanI_cons_not htx, ih hc]
        show some (x :: (u' ++ str " #\x7d"), x :: rstripWs u', []) = _
        rw [rstripWs_cons_ne hne]
    · have hwf : isWs x = false := by simpa using hw
      have htx : termAt (x :: (u' ++ str " #\x7d")) = false := by
        rw [termAt_cons_nonws hwf, strHB]
        cases u' with
        | nil =>
          rw [List.nil_append, strSHB, startsSeq2_eval]
          simp
        | cons y u'' =>
          rw [List.cons_append, startsSeq2_eval]
          rw [strHB, startsSeq2_eval] at hs
          exact hs
      rw [scanI_cons_not htx, ih hc]
      show some (x :: (u' ++ str " #\x7d"), x :: rstripWs u', []) = _
      rw [rstripWs_cons_nonws hwf]

/-! ### Clean block content and literal-tag facts -/

theorem endTagAt_lit : endTagAt (str "\x7b% endcomment %\x7d") = true := by decide

theorem endTagConsumed_lit :
    endTagConsumed (str "\x7b% endcomment %\x7d") = str "\x7b% endcomment %\x7d" := by decide

theorem endTagRest_lit : endTagRest (str "\x7b% endcomment %\x7d") = [] := by decide

theorem startsSeq1_eval (a x : Char) (l : List Char) :
    startsSeq [a] (x :: l) = (a == x) := by
  simp [startsSeq]

/-- On content with no opening-tag pair, followed by text beginning with a
closing tag (but not with a bare `%`), the lazy block scan captures exactly
the content. -/
theorem scanB_clean : ∀ (c : List Char), containsSeq (str "\x7b%") c = false →
    ∀ (v : List Char), endTagAt v = true → startsSeq ['%'] v = false →
    scanB (c ++ v) = some (c ++ endTagConsumed v, c, endTagRest v) := by
  intro c
  induction c with
  | nil =>
    intro _ v hv hv2
    cases v with
    | nil => rw [endTagAt_nil] at hv; exact absurd hv (by simp)
    | cons a v' =>
      rw [List.nil_append, scanB_cons_term hv]
      simp
  | cons x c' ih =>
    intro h v hv hv2
    obtain ⟨hs, hc⟩ := containsSeq_cons_elim h
    have h1 : startsSeq (str "\x7b%") (x :: (c' ++ v)) = false := by
      rw [show str "\x7b%" = ['\x7b', '%'] from rfl]
      cases c' with
      | nil =>
        rw [List.nil_append]
        cases v with
        | nil => rw [endTagAt_nil] at hv; exact absurd hv (by simp)
        | cons z v'' =>
          rw [startsSeq2_eval]
          rw [startsSeq1_eval] at hv2
          simp [hv2]
      | cons y c'' =>
        rw [List.cons_append, startsSeq2_eval]
        rw [show str "\x7b%" = ['\x7b', '%'] from rfl, startsSeq2_eval] at hs
        exact hs
    have het : endTagAt (x :: (c' ++ v)) = false := by
      rw [endTagAt, h1]
      simp
    rw [List.cons_append, scanB_cons_not het, ih hc v hv hv2]
    rfl

/-! ### Conversion of marked comments -/

theorem convertInline_hideTok (w c : List Char) : convertInline w (str "!hide" ++ c) = w := rfl

theorem convertInline_renderHide (w c : List Char) :
    convertInline w (str "!render !hide" ++ c) = w := rfl

theorem convertBlock_hideNote (w n c : List Char) :
    convertBlock w (some (str "!hide" ++ n)) c = w := rfl

theorem convertBlock_renderHideNote (w n c : List Char) :
    convertBlock w (some (str "!render !hide" ++ n)) c = w := rfl

theorem convertBlock_emptyNote (w1 w2 c : List Char) :
    convertBlock w1 (some []) c = convertBlock w2 none c := rfl

theorem parseOpen_hideLit (r : List Char) :
    parseOpen (str "\x7b% comment \"!hide\" %\x7d" ++ r) =
      some (str "\x7b% comment \"!hide\" %\x7d", some (str "!hide"), r) := rfl

theorem parseOpen_emptyLit (r : List Char) :
    parseOpen (str "\x7b% comment \"\" %\x7d" ++ r) =
      some (str "\x7b% comment \"\" %\x7d", some [], r) := rfl

theorem parseOpen_plainLit (r : List Char) :
    parseOpen (str "\x7b% comment %\x7d" ++ r) =
      some (str "\x7b% comment %\x7d", none, r) := rfl

/-! ### Further conversion and scanning helpers -/

theorem startsSeq_cons_head_false {a x : Char} {p l : List Char} (h : (a == x) = false) :
    startsSeq (a :: p) (x :: l) = false := by
  simp [startsSeq, h]

theorem termAt_cons_lit {x : Char} (hw : isWs x = false) (hx : ('#' == x) = false)
    (v : List Char) : termAt (x :: v) = false := by
  rw [termAt_cons_nonws hw, strHB]
  exact startsSeq_cons_head_false hx

theorem scanI_hide_prepend (m : List Char) :
    scanI (str "!hide" ++ m) =
      (scanI m).map fun (w, cont, r) => (str "!hide" ++ w, str "!hide" ++ cont, r) := by
  show scanI ('!' :: 'h' :: 'i' :: 'd' :: 'e' :: m) = _
  rw [scanI_cons_not (termAt_cons_lit (by decide) (by decide) _),
    scanI_cons_not (termAt_cons_lit (by decide) (by decide) _),
    scanI_cons_not (termAt_cons_lit (by decide) (by decide) _),
    scanI_cons_not (termAt_cons_lit (by decide) (by decide) _),
    scanI_cons_not (termAt_cons_lit (by decide) (by decide) _)]
  cases hm : scanI m with
  | none => rfl
  | some trip =>
    obtain ⟨w, cont, r⟩ := trip
    rfl

theorem convertInline_render (w c : List Char)
    (h : startsSeq (str "!hide") (c.dropWhile isWs) = false) :
    convertInline w (str "!render" ++ c) =
      str "<!-- " ++ escape_html_comment (c.dropWhile isWs) ++ str " -->" := by
  have e0 : (str "!render" ++ c).dropWhile isWs = str "!render" ++ c := rfl
  have e1 : startsSeq (str "!hide") (str "!render" ++ c) = false := rfl
  have e2 : startsSeq (str "!render") (str "!render" ++ c) = true := rfl
  have e3 : (str "!render" ++ c).drop 7 = c := rfl
  simp only [convertInline, e0, e1, e2, e3, h]
  simp

theorem convertInline_default (w cont : List Char)
    (h1 : startsSeq (str "!hide") (cont.dropWhile isWs) = false)
    (h2 : startsSeq (str "!render") (cont.dropWhile isWs) = false) :
    convertInline w cont = str "\x7b% verbatim %\x7d<!-- " ++ escape_html_comment cont ++
      str " -->\x7b% endverbatim %\x7d" := by
  simp only [convertInline, h1, h2]
  simp

theorem matchInlineAt_nil : matchInlineAt [] = none := rfl

theorem matchBlockAt_nil : matchBlockAt [] = none := rfl

theorem subInline_some' {s w cont r : List Char} (h : matchInlineAt s = some (w, cont, r)) :
    subInline s = convertInline w cont ++ subInline r := by
  cases s with
  | nil => rw [matchInlineAt_nil] at h; exact absurd h (by simp)
  | cons c t => exact subInline_some h

theorem subBlock_some' {s w r : List Char} {note : Option (List Char)} {cont : List Char}
    (h : matchBlockAt s = some (w, note, cont, r)) :
    subBlock s = convertBlock w note cont ++ subBlock r := by
  cases s with
  | nil => rw [matchBlockAt_nil] at h; exact absurd h (by simp)
  | cons c t => exact subBlock_some h

/-! ### Properties of the escaper -/

theorem escape_noDD : ∀ (l : List Char), containsSeq (str "--") l = false →
    escape_html_comment l = l := by
  intro l
  induction l using escape_html_comment.induct with
  | case1 => intro _; rfl
  | case2 c => intro _; rfl
  | case3 c1 c2 rest hdd ih =>
    intro h
    exfalso
    obtain ⟨hs, _⟩ := containsSeq_cons_elim h
    obtain ⟨h1, h2⟩ := by simpa using hdd
    rw [show str "--" = ['-', '-'] from rfl, startsSeq2_eval] at hs
    simp [h1, h2] at hs
  | case4 c1 c2 rest hdd ih =>
    intro h
    rw [escape_html_comment, if_neg (by simpa using hdd)]
    rw [ih (containsSeq_cons_elim h).2]

theorem escape_length : ∀ (l : List Char),
    (escape_html_comment l).length = l.length + countDD l := by
  intro l
  induction l using escape_html_comment.induct with
  | case1 => rfl
  | case2 c => rfl
  | case3 c1 c2 rest hdd ih =>
    rw [escape_html_comment, if_pos hdd, countDD, if_pos hdd]
    simp only [List.length_cons, ih]
    omega
  | case4 c1 c2 rest hdd ih =>
    rw [escape_html_comment, if_neg (by simpa using hdd), countDD,
      if_neg (by simpa using hdd)]
    simp only [List.length_cons, ih]
    omega

/-! ### The claims -/

/-- C2: hide takes precedence over render in either order: for every content,
an inline comment whose leading marker tokens are `!hide !render` or
`!render !hide`, and a block comment whose note starts with either ordering,
is classified hidden and the converter returns the whole match unchanged; and
on the literal input (inline open) `!render !hide` (var x) (inline close) the
transform returns the input exactly. -/
theorem hide_render_precedence :
    (∀ (w c : List Char), convertInline w (str "!hide !render " ++ c) = w) ∧
    (∀ (w c : List Char), convertInline w (str "!render !hide " ++ c) = w) ∧
    (∀ (w n cc : List Char), convertBlock w (some (str "!hide !render" ++ n)) cc = w) ∧
    (∀ (w n cc : List Char), convertBlock w (some (str "!render !hide" ++ n)) cc = w) ∧
    preprocess_template (str "\x7b# !render !hide \x7b\x7b x \x7d\x7d #\x7d") =
      str "\x7b# !render !hide \x7b\x7b x \x7d\x7d #\x7d" :=
  ⟨fun _ _ => rfl, fun _ _ => rfl, fun _ _ _ => rfl, fun _ _ _ => rfl, by decide⟩

/-- C4: a default block comment with note `todo` and content `fix this`
becomes the guard-wrapped `<!-- [todo] fix this -->`, while the
`!render debug` block with a template variable becomes
`<!-- [debug] (var user.name) -->` with no guard and no render token left. -/
theorem block_note_formatting :
    preprocess_template (str "\x7b% comment \"todo\" %\x7dfix this\x7b% endcomment %\x7d") =
      str "\x7b% verbatim %\x7d<!-- [todo] fix this -->\x7b% endverbatim %\x7d" ∧
    preprocess_template
        (str "\x7b% comment \"!render debug\" %\x7d\x7b\x7b user.name \x7d\x7d\x7b% endcomment %\x7d") =
      str "<!-- [debug] \x7b\x7b user.name \x7d\x7d -->" ∧
    containsSeq (str "!render")
      (preprocess_template
        (str "\x7b% comment \"!render debug\" %\x7d\x7b\x7b user.name \x7d\x7d\x7b% endcomment %\x7d")) =
      false ∧
    containsSeq (str "verbatim")
      (preprocess_template
        (str "\x7b% comment \"!render debug\" %\x7d\x7b\x7b user.name \x7d\x7d\x7b% endcomment %\x7d")) =
      false := by
  refine ⟨by decide, by decide, by decide, by decide⟩

/-- C5: the escaper replaces the left-to-right non-overlapping double-dash
occurrences by dash-space-dash: it is the identity (hence idempotent) on text
without a double dash, it grows the length by exactly the number of such
occurrences (`countDD`), and on four dashes it yields `- -- -`, length 4 to 6. -/
theorem escape_html_comment_spec :
    (∀ (l : List Char), containsSeq (str "--") l = false →
      escape_html_comment l = l ∧
      escape_html_comment (escape_html_comment l) = escape_html_comment l) ∧
    (∀ (l : List Char), (escape_html_comment l).length = l.length + countDD l) ∧
    escape_html_comment (str "----") = str "- -- -" ∧
    (str "----").length = 4 ∧ (str "- -- -").length = 6 := by
  refine ⟨fun l h => ?_, escape_length, by decide, by decide, by decide⟩
  have h1 := escape_noDD l h
  exact ⟨h1, by rw [h1]; exact h1⟩

theorem escape_html_comment_spec_w :
    containsSeq (str "--") (str "simple comment") = false ∧
    escape_html_comment (str "simple comment") = str "simple comment" ∧
    (escape_html_comment (str "a--b--c")).length = (str "a--b--c").length + countDD (str "a--b--c") :=
  ⟨by decide, (escape_html_comment_spec.1 (str "simple comment") (by decide)).1,
    escape_html_comment_spec.2.1 (str "a--b--c")⟩

/-- C8: on the nested input, the block pattern matched at the start captures
the inline span as its content (group 2), and the transform's output is the
block's guard-wrapped comment with the converted inline span inside it;
the inline span is never replaced as a top-level span of the original. -/
theorem block_before_inline :
    matchBlockAt (str "\x7b% comment %\x7d\x7b# inner #\x7d\x7b% endcomment %\x7d") =
      some (str "\x7b% comment %\x7d\x7b# inner #\x7d\x7b% endcomment %\x7d", none,
        str "\x7b# inner #\x7d", []) ∧
    preprocess_template (str "\x7b% comment %\x7d\x7b# inner #\x7d\x7b% endcomment %\x7d") =
      str "\x7b% verbatim %\x7d<!-- \x7b% verbatim %\x7d<!-- inner -->\x7b% endverbatim %\x7d -->\x7b% endverbatim %\x7d" := by
  refine ⟨by decide, by decide⟩

/-- C9: the transform is a total function; on any text where neither comment
grammar matches at any position it is the identity, and the malformed
unterminated block opener is left byte-for-byte untouched. -/
theorem transform_total_passthrough :
    (∀ (s : List Char), matchFreeB s = true → matchFreeI s = true →
      preprocess_template s = s) ∧
    preprocess_template (str "\x7b% comment %\x7dunterminated") =
      str "\x7b% comment %\x7dunterminated" :=
  ⟨preprocess_id, by decide⟩

theorem transform_total_passthrough_w :
    matchFreeB (str "<div>\x7b\x7b variable \x7d\x7d</div>") = true ∧
    matchFreeI (str "<div>\x7b\x7b variable \x7d\x7d</div>") = true ∧
    preprocess_template (str "<div>\x7b\x7b variable \x7d\x7d</div>") =
      str "<div>\x7b\x7b variable \x7d\x7d</div>" :=
  ⟨by decide, by decide,
    transform_total_passthrough.1 (str "<div>\x7b\x7b variable \x7d\x7d</div>")
      (by decide) (by decide)⟩

/-- C7 counterexample: the claim requires a word boundary after the marker
tokens, so `(inline open) !renderer x (inline close)` would be classified
default and converted with the guard wrap; the code instead matches the bare
prefix `!render` and emits `<!-- er x -->` with no guard. -/
theorem marker_token_plain_prefix_cex :
    preprocess_template (str "\x7b# !renderer x #\x7d") = str "<!-- er x -->" ∧
    containsSeq (str "verbatim") (preprocess_template (str "\x7b# !renderer x #\x7d")) = false := by
  refine ⟨by decide, by decide⟩

/-- C7 amended: the tokens are recognized by plain string prefix with no word
boundary: any content starting with the five characters of the hide token is
hidden, and content starting with the seven characters of the render token is
render-converted even inside a longer word (`!renderer x` yields
`<!-- er x -->`).  `!hidden` nonetheless converts as default only because
`!hide` is not a string prefix of it (the two words differ at their fifth
letter). -/
theorem marker_token_plain_prefix :
    (∀ (w c : List Char), convertInline w (str "!hide" ++ c) = w) ∧
    (∀ (w c : List Char), startsSeq (str "!hide") (c.dropWhile isWs) = false →
      convertInline w (str "!render" ++ c) =
        str "<!-- " ++ escape_html_comment (c.dropWhile isWs) ++ str " -->") ∧
    preprocess_template (str "\x7b# !hidden foo #\x7d") =
      str "\x7b% verbatim %\x7d<!-- !hidden foo -->\x7b% endverbatim %\x7d" ∧
    preprocess_template (str "\x7b# !renderer x #\x7d") = str "<!-- er x -->" :=
  ⟨convertInline_hideTok, convertInline_render, by decide, by decide⟩

theorem marker_token_plain_prefix_w :
    convertInline (str "W") (str "!hide") = str "W" ∧
    startsSeq (str "!hide") ((str " x").dropWhile isWs) = false ∧
    convertInline (str "W") (str "!render" ++ str " x") =
      str "<!-- " ++ escape_html_comment ((str " x").dropWhile isWs) ++ str " -->" := by
  refine ⟨?_, by decide, marker_token_plain_prefix.2.1 (str "W") (str " x") (by decide)⟩
  have h := marker_token_plain_prefix.1 (str "W") []
  simpa using h

/-- C6 counterexample: a second transform application is not always a no-op;
on a render block whose content is itself a block comment, the first pass
re-exposes an opening tag which the second application then converts. -/
theorem transform_second_pass_noop_cex :
    preprocess_template
        (str "\x7b% comment \"!render\" %\x7d\x7b% comment %\x7dx\x7b% endcomment %\x7d\x7b% endcomment %\x7d") =
      str "<!-- \x7b% comment %\x7dx -->\x7b% endcomment %\x7d" ∧
    preprocess_template (preprocess_template
        (str "\x7b% comment \"!render\" %\x7d\x7b% comment %\x7dx\x7b% endcomment %\x7d\x7b% endcomment %\x7d")) ≠
      preprocess_template
        (str "\x7b% comment \"!render\" %\x7d\x7b% comment %\x7dx\x7b% endcomment %\x7d\x7b% endcomment %\x7d") := by
  refine ⟨by decide, by decide⟩

/-- C6 amended: a second application of the transform is a no-op whenever the
source grammar's delimiters no longer occur in the first output, i.e. when
neither pattern matches anywhere in `transform(s)`; this is the claim's own
rationale turned into the needed hypothesis (it can fail when hidden or
rendered output re-exposes delimiters, see the counterexample). -/
theorem transform_second_pass_noop :
    ∀ (s : List Char), matchFreeB (preprocess_template s) = true →
      matchFreeI (preprocess_template s) = true →
      preprocess_template (preprocess_template s) = preprocess_template s :=
  fun _ hb hi => preprocess_id _ hb hi

theorem transform_second_pass_noop_w :
    matchFreeB (preprocess_template (str "\x7b# a #\x7d")) = true ∧
    matchFreeI (preprocess_template (str "\x7b# a #\x7d")) = true ∧
    preprocess_template (preprocess_template (str "\x7b# a #\x7d")) =
      preprocess_template (str "\x7b# a #\x7d") :=
  ⟨by decide, by decide, transform_second_pass_noop (str "\x7b# a #\x7d") (by decide) (by decide)⟩

theorem strInlineOpen : str "\x7b#" = ['\x7b', '#'] := rfl

theorem strTagOpen : str "\x7b%" = ['\x7b', '%'] := rfl

theorem matchInlineAt_of {s : List Char} (h : startsSeq (str "\x7b#") s = true)
    {w cont r : List Char} (hsc : scanI ((s.drop 2).dropWhile isWs) = some (w, cont, r)) :
    matchInlineAt s = some (str "\x7b#" ++ ((s.drop 2).takeWhile isWs ++ w), cont, r) := by
  unfold matchInlineAt
  rw [if_pos h, hsc]
  rfl

theorem matchBlockAt_of {s oc : List Char} {nt : Option (List Char)} {r1 w2 cont2 r2 : List Char}
    (hpo : parseOpen s = some (oc, nt, r1)) (hsb : scanB r1 = some (w2, cont2, r2)) :
    matchBlockAt s = some (oc ++ w2, nt, cont2, r2) := by
  have h0 : matchBlockAt s = (scanB r1).map fun (w, cont, r2) => (oc ++ w, nt, cont, r2) := by
    unfold matchBlockAt
    rw [hpo]
  rw [h0, hsb]
  rfl

/-- C10: a present-but-empty annotation produces exactly the same output as
an absent annotation, for every content: the empty note is falsy in both the
hide/render checks and the note-prefix formatting, so the two inputs are
observationally indistinguishable through the transform. -/
theorem empty_note_equals_absent_note :
    ∀ (c : List Char),
      preprocess_template (str "\x7b% comment \"\" %\x7d" ++ (c ++ str "\x7b% endcomment %\x7d")) =
      preprocess_template (str "\x7b% comment %\x7d" ++ (c ++ str "\x7b% endcomment %\x7d")) := by
  intro c
  cases hsb : scanB (c ++ str "\x7b% endcomment %\x7d") with
  | none =>
    exfalso
    have hx := scanB_app_isSome c (str "\x7b% endcomment %\x7d") endTagAt_lit
    rw [hsb] at hx
    simp at hx
  | some trip =>
    obtain ⟨w2, cont2, r2⟩ := trip
    have hm1 := matchBlockAt_of (parseOpen_emptyLit (c ++ str "\x7b% endcomment %\x7d")) hsb
    have hm2 := matchBlockAt_of (parseOpen_plainLit (c ++ str "\x7b% endcomment %\x7d")) hsb
    rw [preprocess_template, preprocess_template, subBlock_some' hm1, subBlock_some' hm2,
      convertBlock_emptyNote (str "\x7b% comment \"\" %\x7d" ++ w2)
        (str "\x7b% comment %\x7d" ++ w2) cont2]

/-- C1 counterexample: the hidden block comment is not a fixed point when its
content contains an inline comment span (exactly the case the claim
includes): the block pass leaves the hidden block unchanged, but the
subsequent inline pass rewrites the inline span inside it. -/
theorem hide_markers_fixed_points_cex :
    preprocess_template (str "\x7b% comment \"!hide\" %\x7d\x7b# x #\x7d\x7b% endcomment %\x7d") =
      str "\x7b% comment \"!hide\" %\x7d\x7b% verbatim %\x7d<!-- x -->\x7b% endverbatim %\x7d\x7b% endcomment %\x7d" ∧
    preprocess_template (str "\x7b% comment \"!hide\" %\x7d\x7b# x #\x7d\x7b% endcomment %\x7d") ≠
      str "\x7b% comment \"!hide\" %\x7d\x7b# x #\x7d\x7b% endcomment %\x7d" := by
  refine ⟨by decide, by decide⟩

theorem hidden_inline_fixed (c : List Char) (h1 : containsSeq (str "\x7b#") c = false)
    (h2 : containsSeq (str "\x7b%") c = false) :
    preprocess_template (str "\x7b# !hide " ++ (c ++ str " #\x7d")) =
      str "\x7b# !hide " ++ (c ++ str " #\x7d") := by
  have h2' : containsSeq ['\x7b', '%'] c = false := h2
  have h1' : containsSeq ['\x7b', '#'] c = false := h1
  have hnb : containsSeq ['\x7b', '%'] (str "\x7b# !hide " ++ (c ++ str " #\x7d")) = false := by
    refine noSeq2_append _ _ _ _ (by decide) ?_ (fun hl => absurd hl (by decide))
    exact noSeq2_append _ _ _ _ h2' (by decide) (fun _ => by decide)
  have hsb : subBlock (str "\x7b# !hide " ++ (c ++ str " #\x7d")) =
      str "\x7b# !hide " ++ (c ++ str " #\x7d") :=
    subBlock_id _ (matchFreeB_of_noSeq _ hnb)
  have hex := scanI_app_isSome (' ' :: c) (str " #\x7d") (by decide)
  rw [show (' ' :: c) ++ str " #\x7d" = ' ' :: (c ++ str " #\x7d") from rfl] at hex
  cases hm : scanI (' ' :: (c ++ str " #\x7d")) with
  | none => rw [hm] at hex; simp at hex
  | some trip =>
    obtain ⟨w', cont', r'⟩ := trip
    obtain ⟨hwr, _⟩ := scanI_concat _ _ _ _ hm
    have hMB : matchInlineAt (str "\x7b# !hide " ++ (c ++ str " #\x7d")) =
        some (str "\x7b#" ++ ([' '] ++ (str "!hide" ++ w')), str "!hide" ++ cont', r') := by
      have hsc : scanI (((str "\x7b# !hide " ++ (c ++ str " #\x7d")).drop 2).dropWhile isWs) =
          some (str "!hide" ++ w', str "!hide" ++ cont', r') := by
        rw [show ((str "\x7b# !hide " ++ (c ++ str " #\x7d")).drop 2).dropWhile isWs
            = str "!hide" ++ (' ' :: (c ++ str " #\x7d")) from rfl]
        rw [scanI_hide_prepend, hm]
        rfl
      have hstep := matchInlineAt_of
        (show startsSeq (str "\x7b#") (str "\x7b# !hide " ++ (c ++ str " #\x7d")) = true from rfl)
        hsc
      rw [hstep]
      rfl
    rw [preprocess_template, hsb, subInline_some' hMB, convertInline_hideTok]
    have hnr : containsSeq ['\x7b', '#'] r' = false := by
      have hm0 : containsSeq ['\x7b', '#'] ((' ' :: c) ++ str " #\x7d") = false := by
        refine noSeq2_append _ _ _ _ ?_ (by decide) (fun _ => by decide)
        show (startsSeq ['\x7b', '#'] (' ' :: c) || containsSeq ['\x7b', '#'] c) = false
        rw [startsSeq_cons_head_false (by decide), h1']
        rfl
      rw [show (' ' :: c) ++ str " #\x7d" = ' ' :: (c ++ str " #\x7d") from rfl] at hm0
      rw [← hwr] at hm0
      exact containsSeq_append_right _ _ hm0
    rw [subInline_id r' (matchFreeI_of_noSeq r' hnr)]
    calc str "\x7b#" ++ ([' '] ++ (str "!hide" ++ w')) ++ r'
        = str "\x7b#" ++ ([' '] ++ (str "!hide" ++ (w' ++ r'))) := by simp [List.append_assoc]
      _ = str "\x7b#" ++ ([' '] ++ (str "!hide" ++ (' ' :: (c ++ str " #\x7d")))) := by rw [hwr]
      _ = str "\x7b# !hide " ++ (c ++ str " #\x7d") := rfl

theorem hidden_block_fixed (c : List Char) (h1 : containsSeq (str "\x7b#") c = false)
    (h2 : containsSeq (str "\x7b%") c = false) :
    preprocess_template (str "\x7b% comment \"!hide\" %\x7d" ++ (c ++ str "\x7b% endcomment %\x7d")) =
      str "\x7b% comment \"!hide\" %\x7d" ++ (c ++ str "\x7b% endcomment %\x7d") := by
  have h1' : containsSeq ['\x7b', '#'] c = false := h1
  have hscan := scanB_clean c h2 (str "\x7b% endcomment %\x7d") endTagAt_lit (by decide)
  rw [endTagConsumed_lit, endTagRest_lit] at hscan
  have hMB := matchBlockAt_of (parseOpen_hideLit (c ++ str "\x7b% endcomment %\x7d")) hscan
  have hcb : convertBlock
      (str "\x7b% comment \"!hide\" %\x7d" ++ (c ++ str "\x7b% endcomment %\x7d"))
      (some (str "!hide")) c =
      str "\x7b% comment \"!hide\" %\x7d" ++ (c ++ str "\x7b% endcomment %\x7d") := by
    have h0 := convertBlock_hideNote
      (str "\x7b% comment \"!hide\" %\x7d" ++ (c ++ str "\x7b% endcomment %\x7d")) [] c
    simpa using h0
  rw [preprocess_template, subBlock_some' hMB, hcb, subBlock_nil, List.append_nil]
  have hni : containsSeq ['\x7b', '#']
      (str "\x7b% comment \"!hide\" %\x7d" ++ (c ++ str "\x7b% endcomment %\x7d")) = false := by
    refine noSeq2_append _ _ _ _ (by decide) ?_ (fun hl => absurd hl (by decide))
    exact noSeq2_append _ _ _ _ h1' (by decide) (fun _ => by decide)
  exact subInline_id _ (matchFreeI_of_noSeq _ hni)

/-- C1 amended: the two hidden forms are fixed points of the transform for
every content `c` that contains neither an inline opening pair nor a tag
opening pair; the claim's inclusion of contents that look like comment
delimiters fails (see the counterexample, where an inline span inside a
hidden block's content is rewritten by the inline pass). -/
theorem hide_markers_fixed_points :
    ∀ (c : List Char), containsSeq (str "\x7b#") c = false →
      containsSeq (str "\x7b%") c = false →
      preprocess_template (str "\x7b# !hide " ++ (c ++ str " #\x7d")) =
        str "\x7b# !hide " ++ (c ++ str " #\x7d") ∧
      preprocess_template (str "\x7b% comment \"!hide\" %\x7d" ++ (c ++ str "\x7b% endcomment %\x7d")) =
        str "\x7b% comment \"!hide\" %\x7d" ++ (c ++ str "\x7b% endcomment %\x7d") :=
  fun c h1 h2 => ⟨hidden_inline_fixed c h1 h2, hidden_block_fixed c h1 h2⟩

theorem hide_markers_fixed_points_w :
    containsSeq (str "\x7b#") (str "secret: a--b") = false ∧
    containsSeq (str "\x7b%") (str "secret: a--b") = false ∧
    preprocess_template (str "\x7b# !hide " ++ (str "secret: a--b" ++ str " #\x7d")) =
      str "\x7b# !hide " ++ (str "secret: a--b" ++ str " #\x7d") ∧
    preprocess_template
        (str "\x7b% comment \"!hide\" %\x7d" ++ (str "secret: a--b" ++ str "\x7b% endcomment %\x7d")) =
      str "\x7b% comment \"!hide\" %\x7d" ++ (str "secret: a--b" ++ str "\x7b% endcomment %\x7d") := by
  have h := hide_markers_fixed_points (str "secret: a--b") (by decide) (by decide)
  exact ⟨by decide, by decide, h.1, h.2⟩

/-- C3 counterexample: for `t = "a #} b"` (which starts with neither marker
token), the wrapped input is cut at the first closing pair inside `t`, so the
output is not a guard-wrapped comment containing `escape(trim(t))` — the
escaped trimmed text does not occur in the output at all. -/
theorem inline_default_guard_wrap_cex :
    preprocess_template (str "\x7b# a #\x7d b #\x7d") =
      str "\x7b% verbatim %\x7d<!-- a -->\x7b% endverbatim %\x7d b #\x7d" ∧
    startsSeq (str "!hide") (strip (str "a #\x7d b")) = false ∧
    startsSeq (str "!render") (strip (str "a #\x7d b")) = false ∧
    containsSeq (escape_html_comment (strip (str "a #\x7d b")))
      (preprocess_template (str "\x7b# a #\x7d b #\x7d")) = false := by
  refine ⟨by decide, by decide, by decide, by decide⟩

/-- C3 amended: for every `t` containing neither the inline closing pair nor
the tag opening pair, and whose stripped form starts with neither marker
token, the transform maps the wrapped inline comment to the guard-wrapped
HTML comment containing `escape(strip t)`; concretely,
`foo--bar` maps to the guard-wrapped `<!-- foo- -bar -->`. -/
theorem inline_default_guard_wrap :
    (∀ (t : List Char), containsSeq (str "#\x7d") t = false →
      containsSeq (str "\x7b%") t = false →
      startsSeq (str "!hide") (strip t) = false →
      startsSeq (str "!render") (strip t) = false →
      preprocess_template (str "\x7b# " ++ (t ++ str " #\x7d")) =
        str "\x7b% verbatim %\x7d<!-- " ++ escape_html_comment (strip t) ++
          str " -->\x7b% endverbatim %\x7d") ∧
    preprocess_template (str "\x7b# foo--bar #\x7d") =
      str "\x7b% verbatim %\x7d<!-- foo- -bar -->\x7b% endverbatim %\x7d" := by
  refine ⟨fun t h1 h2 h3 h4 => ?_, by decide⟩
  have hnb : containsSeq ['\x7b', '%'] (str "\x7b# " ++ (t ++ str " #\x7d")) = false := by
    have h2' : containsSeq ['\x7b', '%'] t = false := h2
    refine noSeq2_append _ _ _ _ (by decide) ?_ (fun hl => absurd hl (by decide))
    exact noSeq2_append _ _ _ _ h2' (by decide) (fun _ => by decide)
  have hsb : subBlock (str "\x7b# " ++ (t ++ str " #\x7d")) = str "\x7b# " ++ (t ++ str " #\x7d") :=
    subBlock_id _ (matchFreeB_of_noSeq _ hnb)
  have hd2 : (str "\x7b# " ++ (t ++ str " #\x7d")).drop 2 = ' ' :: (t ++ str " #\x7d") := rfl
  have hdw : ((str "\x7b# " ++ (t ++ str " #\x7d")).drop 2).dropWhile isWs
      = (t ++ str " #\x7d").dropWhile isWs := by
    rw [hd2, List.dropWhile_cons, if_pos (show isWs ' ' = true from by decide)]
  by_cases hlt : t.dropWhile isWs = []
  · have hstrip : strip t = [] := by
      rw [strip, ltrimWs, hlt]
      rfl
    have hdw2 : (t ++ str " #\x7d").dropWhile isWs = str "#\x7d" := by
      rw [List.dropWhile_append, hlt]
      simp only [List.isEmpty_nil, if_true]
      decide
    have hscan : scanI (((str "\x7b# " ++ (t ++ str " #\x7d")).drop 2).dropWhile isWs) =
        some (str "#\x7d", [], []) := by
      rw [hdw, hdw2]
      decide
    have hMB := matchInlineAt_of
      (show startsSeq (str "\x7b#") (str "\x7b# " ++ (t ++ str " #\x7d")) = true from rfl) hscan
    rw [preprocess_template, hsb, subInline_some' hMB, subInline_nil, List.append_nil, hstrip]
    exact convertInline_default _ [] (by decide) (by decide)
  · have hdw2 : (t ++ str " #\x7d").dropWhile isWs = t.dropWhile isWs ++ str " #\x7d" := by
      rw [List.dropWhile_append]
      have hne : (t.dropWhile isWs).isEmpty = false := by
        cases hcase : t.dropWhile isWs with
        | nil => exact absurd hcase hlt
        | cons a b => rfl
      simp [hne]
    have hns : containsSeq (str "#\x7d") (t.dropWhile isWs) = false :=
      containsSeq_dropWhile isWs t h1
    have hmain := scanI_strip (t.dropWhile isWs) hns
    have hscan : scanI (((str "\x7b# " ++ (t ++ str " #\x7d")).drop 2).dropWhile isWs) =
        some (t.dropWhile isWs ++ str " #\x7d", strip t, []) := by
      rw [hdw, hdw2, hmain]
      rfl
    have hMB := matchInlineAt_of
      (show startsSeq (str "\x7b#") (str "\x7b# " ++ (t ++ str " #\x7d")) = true from rfl) hscan
    rw [preprocess_template, hsb, subInline_some' hMB, subInline_nil, List.append_nil]
    apply convertInline_default
    · rw [strip_dropWhile]
      exact h3
    · rw [strip_dropWhile]
      exact h4

theorem inline_default_guard_wrap_w :
    containsSeq (str "#\x7d") (str "hello  world") = false ∧
    containsSeq (str "\x7b%") (str "hello  world") = false ∧
    startsSeq (str "!hide") (strip (str "hello  world")) = false ∧
    startsSeq (str "!render") (strip (str "hello  world")) = false ∧
    preprocess_template (str "\x7b# " ++ (str "hello  world" ++ str " #\x7d")) =
      str "\x7b% verbatim %\x7d<!-- " ++ escape_html_comment (strip (str "hello  world")) ++
        str " -->\x7b% endverbatim %\x7d" :=
  ⟨by decide, by decide, by decide, by decide,
    inline_default_guard_wrap.1 (str "hello  world") (by decide) (by decide) (by decide) (by decide)⟩
